import Mathlib

/-!
Shallow embedding of the `secure` package (jboverfelt/secure): a length-prefixed,
nonce-randomized, authenticated-encrypted stream framing over NaCl `box`.

The canonical implementation embedded here is `src/secure.go` (`Reader.Read`,
`Writer.Write`) together with the handshake in `src/cmd/challenge2/main.go`.
The legacy fixed-buffer variants (`src/main.go`, the unnamed duplicate of the
package) are embedded separately where a claim refers to them.

Bytes are modelled as `Nat` (on the wire they are `< 256`); a byte stream is a
`List Nat`.  The NaCl `box` primitive is an external trusted library; it is
modelled concretely (`modelSeal` / `modelOpen`) as a 16-byte authentication tag
followed by the message, where the tag's first byte is an xor checksum of
key, nonce and message - enough to realise the primitive's contract: sealing
adds exactly `box.Overhead = 16` bytes, opening a sealed message returns it,
and any single-bit corruption of a sealed ciphertext fails authentication.
-/

namespace Secure

/-- `NonceSize` from secure.go: size in bytes of the NaCl box nonce. -/
def NonceSize : Nat := 24

/-- `KeySize` from secure.go: size in bytes of a NaCl box key. -/
def KeySize : Nat := 32

/-- `MaxMessageSize` from secure.go: max message size supported by the package. -/
def MaxMessageSize : Nat := 32 * 1024

/-- `box.Overhead` from golang.org/x/crypto/nacl/box: the Poly1305 tag length. -/
def boxOverhead : Nat := 16

/-- Value of two little-endian bytes as a 16-bit unsigned integer
(`binary.LittleEndian` decoding of a `uint16`). -/
def le16 (b0 b1 : Nat) : Nat := b0 % 256 + 256 * (b1 % 256)

/-- The two little-endian bytes of `v` as a `uint16`
(`binary.Write(w, binary.LittleEndian, uint16(v))`). -/
def natToLe16 (v : Nat) : List Nat := [v % 256, v / 256 % 256]

/-- `io.ReadFull(r, buf)` over a finite byte stream: succeeds with the first
`n` bytes and the remaining stream iff at least `n` bytes are available before
the stream ends; otherwise the read is short and an error is returned. -/
def readFull (s : List Nat) (n : Nat) : Option (List Nat × List Nat) :=
  if n ≤ s.length then some (s.take n, s.drop n) else none

/-- The accumulation loop inside `io.ReadFull`: the underlying transport is
byte-oriented and each `Read` call may deliver fewer bytes than requested.
`deliver` lists how many bytes the transport offers on each successive call;
a call delivers `min (min d requested) available` bytes.  The loop accumulates
until `n` bytes are gathered, and fails if the stream ends (or the transport
stops delivering) first. -/
def ioReadFull : List Nat → List Nat → Nat → Option (List Nat × List Nat)
  | _, s, 0 => some ([], s)
  | [], _, _ + 1 => none
  | d :: ds, s, n + 1 =>
    let k := min (min d (n + 1)) s.length
    if k = 0 then none
    else
      match ioReadFull ds (s.drop k) (n + 1 - k) with
      | none => none
      | some (got, rest) => some (s.take k ++ got, rest)

/-- Xor checksum of a byte list (first tag byte of the model primitive). -/
def xorSum (l : List Nat) : Nat := l.foldr Nat.xor 0

/-- Model of the 16-byte authentication tag computed by NaCl box for a given
shared key, nonce and message. -/
def modelTag (key nonce m : List Nat) : List Nat :=
  xorSum (key ++ nonce ++ m) :: List.replicate (boxOverhead - 1) 0

/-- Model of `box.SealAfterPrecomputation`: the ciphertext is the 16-byte tag
followed by the message, so `len(ciphertext) = len(plaintext) + box.Overhead`. -/
def modelSeal (key nonce m : List Nat) : List Nat :=
  modelTag key nonce m ++ m

/-- Model of `box.OpenAfterPrecomputation`: verify the tag, then return the
message; authentication failure returns nothing (no partial plaintext). -/
def modelOpen (key nonce c : List Nat) : Option (List Nat) :=
  if boxOverhead ≤ c.length ∧ c.take boxOverhead = modelTag key nonce (c.drop boxOverhead)
  then some (c.drop boxOverhead) else none

/-- `enc` with bit `i` of byte `j` flipped (the tampering considered by the
tamper-detection property: a corrupted ciphertext that no one re-tagged). -/
def bitFlip (enc : List Nat) (j i : Nat) : List Nat :=
  enc.set j (enc.getD j 0 ^^^ 2 ^ i)

/-- The error results of `Reader.Read` in secure.go, in source order:
`errors.New("nonce")`, `errors.New("size")`, `errors.New("wrong size")`,
`errors.New("msg")`, `ErrDecrypt`. -/
inductive ReadErr
  | nonce
  | size
  | wrongSize
  | msg
  | decrypt
deriving DecidableEq, Repr

/-- The error results of `Writer.Write` in secure.go: nonce-generation failure
("secureWriter: cant generate random nonce") and `ErrEncWrite`.  The wrapped
writer is modelled as accepting every write, so `ErrEncWrite` never fires here
but is kept for fidelity of the error enumeration. -/
inductive WriteErr
  | nonceGen
  | encWrite
deriving DecidableEq, Repr

/-- `Reader.Read` from secure.go.  `bopen` is the decryption primitive,
`shared` the precomputed shared secret, `plen` the length of the caller's
destination buffer `p`, and `s` the underlying byte stream.  Returns the
plaintext deposited into `p` (the Go function returns its length), or the
error `Read` returns.  Mirrors the source step by step:
read the 24-byte nonce with `io.ReadFull`; read a little-endian `uint16`
size with `binary.Read`; check `uint16(len(p)) < size - box.Overhead` in
16-bit arithmetic; read `size` ciphertext bytes with `io.ReadFull`; open,
returning `ErrDecrypt` when authentication fails. -/
def readerRead (bopen : List Nat → List Nat → List Nat → Option (List Nat))
    (shared : List Nat) (plen : Nat) (s : List Nat) : Except ReadErr (List Nat) :=
  match readFull s NonceSize with
  | none => .error .nonce
  | some (nonce, s1) =>
    match readFull s1 2 with
    | none => .error .size
    | some (sb, s2) =>
      let size : Nat := le16 (sb.getD 0 0) (sb.getD 1 0)
      if plen % 65536 < (size + 65536 - boxOverhead) % 65536 then
        .error .wrongSize
      else
        match readFull s2 size with
        | none => .error .msg
        | some (enc, _) =>
          match bopen shared nonce enc with
          | none => .error .decrypt
          | some decrypt => .ok decrypt

/-- `Writer.Write` from secure.go.  `bseal` is the encryption primitive,
`shared` the precomputed shared secret, `randSrc` the bytes the secure random
source can supply, and `p` the plaintext.  Returns the bytes written to the
underlying transport together with `Write`'s result: on success the frame
`nonce ++ littleEndianUint16 (len enc) ++ enc` is written and `len(p)` is
returned; if the random source cannot supply a full 24-byte nonce, no bytes
are written and the nonce-generation error is returned.  The wrapped writer
is modelled as accepting every write. -/
def writerWrite (bseal : List Nat → List Nat → List Nat → List Nat)
    (shared : List Nat) (randSrc : List Nat) (p : List Nat) :
    List Nat × Except WriteErr Nat :=
  match readFull randSrc NonceSize with
  | none => ([], .error .nonceGen)
  | some (nonce, _) =>
    let enc := bseal shared nonce p
    (nonce ++ natToLe16 enc.length ++ enc, .ok p.length)

/-- Peer-key read of the canonical handshake (`dial` in cmd/challenge2/main.go):
`io.ReadFull(conn, peerPub[:])` for a 32-byte key; on a short stream the error
propagates and `dial` fails. -/
def dialReadPeerKey (s : List Nat) : Option (List Nat) :=
  match readFull s KeySize with
  | none => none
  | some (key, _) => some key

/-- Peer-key read of the legacy `Dial` in src/main.go: a single `conn.Read`
into a 32-byte slice.  `chunk` is whatever that one call delivers (`n` bytes,
possibly fewer than 32); the code then copies `chunk` into a zeroed 32-byte
array and proceeds, so a short read yields a zero-padded key and no error. -/
def legacyDialPeerKey (chunk : List Nat) : List Nat :=
  chunk.take KeySize ++ List.replicate (KeySize - (chunk.take KeySize).length) 0

/-! ### Evaluation lemmas for the embedded operations -/

lemma readFull_of_le (s : List Nat) (n : Nat) (h : n ≤ s.length) :
    readFull s n = some (s.take n, s.drop n) := by
  simp [readFull, h]

lemma readFull_of_lt (s : List Nat) (n : Nat) (h : s.length < n) :
    readFull s n = none := by
  unfold readFull
  rw [if_neg]
  omega

lemma readFull_append (a b : List Nat) : readFull (a ++ b) a.length = some (a, b) := by
  rw [readFull_of_le _ _ (by simp)]
  rw [List.take_left, List.drop_left]

lemma writerWrite_eq (bseal : List Nat → List Nat → List Nat → List Nat)
    (shared randSrc p : List Nat) (h : NonceSize ≤ randSrc.length) :
    writerWrite bseal shared randSrc p =
      (randSrc.take NonceSize ++
        natToLe16 (bseal shared (randSrc.take NonceSize) p).length ++
        bseal shared (randSrc.take NonceSize) p, Except.ok p.length) := by
  simp [writerWrite, readFull_of_le _ _ h]

lemma writerWrite_short (bseal : List Nat → List Nat → List Nat → List Nat)
    (shared randSrc p : List Nat) (h : randSrc.length < NonceSize) :
    writerWrite bseal shared randSrc p = ([], Except.error WriteErr.nonceGen) := by
  simp [writerWrite, readFull_of_lt _ _ h]

lemma readerRead_cons (bopen : List Nat → List Nat → List Nat → Option (List Nat))
    (shared : List Nat) (plen : Nat) (nonce : List Nat) (b0 b1 : Nat) (rest : List Nat)
    (hn : nonce.length = NonceSize) :
    readerRead bopen shared plen (nonce ++ b0 :: b1 :: rest) =
      if plen % 65536 < (le16 b0 b1 + 65536 - boxOverhead) % 65536 then
        Except.error ReadErr.wrongSize
      else if le16 b0 b1 ≤ rest.length then
        match bopen shared nonce (rest.take (le16 b0 b1)) with
        | none => Except.error ReadErr.decrypt
        | some decrypt => Except.ok decrypt
      else Except.error ReadErr.msg := by
  have h1 : readFull (nonce ++ b0 :: b1 :: rest) NonceSize = some (nonce, b0 :: b1 :: rest) := by
    rw [← hn]; exact readFull_append _ _
  have h2 : readFull (b0 :: b1 :: rest) 2 = some ([b0, b1], rest) := by
    rw [readFull_of_le _ _ (by simp)]; rfl
  unfold readerRead
  simp only [h1, h2, List.getD_cons_zero, List.getD_cons_succ]
  by_cases hc : plen % 65536 < (le16 b0 b1 + 65536 - boxOverhead) % 65536
  · simp [hc]
  · simp only [if_neg hc]
    by_cases hr : le16 b0 b1 ≤ rest.length
    · rw [readFull_of_le _ _ hr, if_pos hr]
    · rw [readFull_of_lt _ _ (by omega), if_neg hr]

/-! ### Properties of the model `box` primitive -/

lemma modelTag_length (key nonce m : List Nat) : (modelTag key nonce m).length = boxOverhead := by
  simp [modelTag, boxOverhead]

lemma modelSeal_length (key nonce m : List Nat) :
    (modelSeal key nonce m).length = m.length + boxOverhead := by
  simp [modelSeal, modelTag_length, boxOverhead]
  omega

lemma modelSeal_take (key nonce m : List Nat) :
    (modelSeal key nonce m).take boxOverhead = modelTag key nonce m := by
  rw [modelSeal, ← modelTag_length key nonce m, List.take_left]

lemma modelSeal_drop (key nonce m : List Nat) :
    (modelSeal key nonce m).drop boxOverhead = m := by
  rw [modelSeal, ← modelTag_length key nonce m, List.drop_left]

lemma modelOpen_seal (key nonce m : List Nat) :
    modelOpen key nonce (modelSeal key nonce m) = some m := by
  rw [modelOpen, if_pos, modelSeal_drop]
  constructor
  · rw [modelSeal_length]; omega
  · rw [modelSeal_take, modelSeal_drop]

lemma xor_ne_self (b x : Nat) (hx : x ≠ 0) : b ^^^ x ≠ b := by
  intro h
  apply hx
  have h2 : b ^^^ (b ^^^ x) = b ^^^ b := congrArg (b ^^^ ·) h
  rw [← Nat.xor_assoc, Nat.xor_self, Nat.zero_xor] at h2
  exact h2

lemma getD_set_self (l : List Nat) (j x : Nat) (h : j < l.length) :
    (l.set j x).getD j 0 = x := by
  induction l generalizing j with
  | nil => simp at h
  | cons a l ih =>
    cases j with
    | zero => rfl
    | succ j =>
      have hj : j < l.length := by simpa using h
      simpa [List.set] using ih j hj

lemma xorSum_cons (a : Nat) (l : List Nat) : xorSum (a :: l) = a ^^^ xorSum l := rfl

lemma xorSum_set (l : List Nat) (j x : Nat) (h : j < l.length) :
    xorSum (l.set j (l.getD j 0 ^^^ x)) = xorSum l ^^^ x := by
  induction l generalizing j with
  | nil => simp at h
  | cons a l ih =>
    cases j with
    | zero =>
      simp only [List.getD_cons_zero, List.set]
      rw [xorSum_cons, xorSum_cons, Nat.xor_assoc, Nat.xor_comm x (xorSum l), ← Nat.xor_assoc]
    | succ j =>
      have hj : j < l.length := by simpa using h
      simp only [List.getD_cons_succ, List.set]
      rw [xorSum_cons, xorSum_cons, ih j hj, ← Nat.xor_assoc]

lemma two_pow_ne_zero (i : Nat) : (2 : Nat) ^ i ≠ 0 := by positivity

/-- Tamper detection of the model primitive: opening a sealed ciphertext with any
single bit flipped fails authentication. -/
lemma modelOpen_bitFlip (key nonce m : List Nat) (j i : Nat)
    (hj : j < (modelSeal key nonce m).length) :
    modelOpen key nonce (bitFlip (modelSeal key nonce m) j i) = none := by
  have htl : (modelTag key nonce m).length = boxOverhead := modelTag_length key nonce m
  by_cases hcase : j < boxOverhead
  · -- the flip lands in the tag
    have hflip : bitFlip (modelSeal key nonce m) j i =
        (modelTag key nonce m).set j ((modelTag key nonce m).getD j 0 ^^^ 2 ^ i) ++ m := by
      rw [bitFlip, modelSeal, List.set_append, if_pos (by omega),
        List.getD_append _ _ _ _ (by omega)]
    rw [hflip, modelOpen, if_neg]
    intro hcond
    have hlen : ((modelTag key nonce m).set j ((modelTag key nonce m).getD j 0 ^^^ 2 ^ i)).length
        = boxOverhead := by rw [List.length_set, htl]
    rw [← hlen, List.take_left, List.drop_left, hlen] at hcond
    have heq := congrArg (fun l => List.getD l j 0) hcond.2
    simp only at heq
    rw [getD_set_self _ _ _ (by omega)] at heq
    exact xor_ne_self _ _ (two_pow_ne_zero i) heq
  · -- the flip lands in the message part of the ciphertext
    have hjm : j - boxOverhead < m.length := by
      rw [modelSeal_length] at hj; omega
    have hflip : bitFlip (modelSeal key nonce m) j i =
        modelTag key nonce m ++ m.set (j - boxOverhead) (m.getD (j - boxOverhead) 0 ^^^ 2 ^ i) := by
      rw [bitFlip, modelSeal, List.set_append, if_neg (by omega),
        List.getD_append_right _ _ _ _ (by omega), htl]
    rw [hflip, modelOpen, if_neg]
    intro hcond
    have hlen2 : (m.set (j - boxOverhead) (m.getD (j - boxOverhead) 0 ^^^ 2 ^ i)).length
        = m.length := List.length_set ..
    rw [← htl, List.take_left, List.drop_left, htl] at hcond
    have hhead := congrArg (fun l => List.getD l 0 0) hcond.2
    simp only [modelTag, List.getD_cons_zero] at hhead
    have hsum : xorSum (key ++ nonce ++
        m.set (j - boxOverhead) (m.getD (j - boxOverhead) 0 ^^^ 2 ^ i)) =
        xorSum (key ++ nonce ++ m) ^^^ 2 ^ i := by
      have hset : key ++ nonce ++ m.set (j - boxOverhead) (m.getD (j - boxOverhead) 0 ^^^ 2 ^ i)
          = (key ++ nonce ++ m).set ((key ++ nonce).length + (j - boxOverhead))
              ((key ++ nonce ++ m).getD ((key ++ nonce).length + (j - boxOverhead)) 0 ^^^ 2 ^ i) := by
        rw [List.set_append, if_neg (by omega),
          List.getD_append_right _ _ _ _ (by omega)]
        simp
      rw [hset]
      exact xorSum_set _ _ _ (by simp; omega)
    rw [hsum] at hhead
    exact xor_ne_self _ _ (two_pow_ne_zero i) hhead.symm

/-! ### The io.ReadFull accumulation loop -/

lemma ioReadFull_short (ds s : List Nat) (n : Nat) (h : s.length < n) :
    ioReadFull ds s n = none := by
  induction ds generalizing s n with
  | nil =>
    match n with
    | 0 => omega
    | n + 1 => rfl
  | cons d ds ih =>
    match n with
    | 0 => omega
    | n + 1 =>
      rw [ioReadFull]
      by_cases hk : min (min d (n + 1)) s.length = 0
      · simp [hk]
      · have hk2 : min (min d (n + 1)) s.length ≤ s.length := by omega
        rw [if_neg hk, ih _ _ (by simp; omega)]

lemma ioReadFull_sound (ds s : List Nat) (n : Nat) (got rest : List Nat)
    (h : ioReadFull ds s n = some (got, rest)) :
    got = s.take n ∧ rest = s.drop n := by
  induction ds generalizing s n got rest with
  | nil =>
    match n with
    | 0 =>
      rw [ioReadFull] at h
      obtain ⟨h1, h2⟩ := Prod.mk.injEq .. ▸ Option.some.injEq .. ▸ h
      simp [← h1, ← h2]
    | n + 1 => exact absurd h (by rw [ioReadFull]; simp)
  | cons d ds ih =>
    match n with
    | 0 =>
      rw [ioReadFull] at h
      obtain ⟨h1, h2⟩ := Prod.mk.injEq .. ▸ Option.some.injEq .. ▸ h
      simp [← h1, ← h2]
    | n + 1 =>
      rw [ioReadFull] at h
      by_cases hk : min (min d (n + 1)) s.length = 0
      · rw [if_pos hk] at h; exact absurd h (by simp)
      · rw [if_neg hk] at h
        cases hrec : ioReadFull ds (s.drop (min (min d (n + 1)) s.length))
            (n + 1 - min (min d (n + 1)) s.length) with
        | none => rw [hrec] at h; exact absurd h (by simp)
        | some pr =>
          obtain ⟨got1, rest1⟩ := pr
          rw [hrec] at h
          simp only [Option.some.injEq, Prod.mk.injEq] at h
          obtain ⟨hg, hr⟩ := h
          obtain ⟨hg1, hr1⟩ := ih _ _ _ _ hrec
          constructor
          · rw [← hg, hg1, ← List.take_add]
            congr 1
            omega
          · rw [← hr, hr1, List.drop_drop]
            congr 1
            omega

/-! ### Little-endian 16-bit arithmetic -/

lemma le16_lt (b0 b1 : Nat) : le16 b0 b1 < 65536 := by
  have h0 : b0 % 256 < 256 := Nat.mod_lt _ (by omega)
  have h1 : b1 % 256 < 256 := Nat.mod_lt _ (by omega)
  rw [le16]
  omega

lemma natToLe16_eq (v : Nat) : natToLe16 v = v % 256 :: v / 256 % 256 :: [] := rfl

lemma le16_natToLe16 (v : Nat) : le16 (v % 256) (v / 256 % 256) = v % 65536 := by
  rw [le16]
  omega

/-! ### Reading a complete frame -/

lemma readerRead_frame (bopen : List Nat → List Nat → List Nat → Option (List Nat))
    (shared nonce enc2 : List Nat) (plen sz : Nat)
    (hn : nonce.length = NonceSize) (hsz : sz = enc2.length)
    (h16 : boxOverhead ≤ sz) (hlt : sz < 65536) :
    readerRead bopen shared plen (nonce ++ natToLe16 sz ++ enc2) =
      if plen % 65536 < sz - boxOverhead then Except.error ReadErr.wrongSize
      else match bopen shared nonce enc2 with
        | none => Except.error ReadErr.decrypt
        | some decrypt => Except.ok decrypt := by
  have hshape : nonce ++ natToLe16 sz ++ enc2 = nonce ++ sz % 256 :: sz / 256 % 256 :: enc2 := by
    simp [natToLe16_eq]
  rw [hshape, readerRead_cons _ _ _ _ _ _ _ hn, le16_natToLe16, Nat.mod_eq_of_lt hlt]
  have harith : (sz + 65536 - boxOverhead) % 65536 = sz - boxOverhead := by
    rw [boxOverhead] at h16 ⊢
    omega
  rw [harith]
  by_cases hc : plen % 65536 < sz - boxOverhead
  · rw [if_pos hc, if_pos hc]
  · rw [if_neg hc, if_neg hc, if_pos (by omega), hsz, List.take_length]

/-! ### Claim C1: round-trip -/

/-- Claim C1 (amended): for every plaintext `m` with `len(m) ≤ MaxMessageSize`
and every shared secret, reading back a frame produced by the secure Writer
through the secure Reader yields exactly `m`, provided the destination buffer
additionally satisfies `uint16(len(p)) ≥ len(m)` (in particular whenever
`len(m) ≤ len(p) < 65536`).  The original claim's hypothesis `len(p) ≥ len(m)`
alone is not enough because `Reader.Read` compares `uint16(len(p))`, the buffer
length reduced mod 2^16, against the plaintext size. -/
theorem roundtrip_ok (shared randSrc m : List Nat) (plen : Nat)
    (hrand : NonceSize ≤ randSrc.length) (hm : m.length ≤ MaxMessageSize)
    (hbuf : m.length ≤ plen % 65536) :
    readerRead modelOpen shared plen (writerWrite modelSeal shared randSrc m).1
      = Except.ok m := by
  rw [writerWrite_eq _ _ _ _ hrand]
  dsimp only
  have hn : (randSrc.take NonceSize).length = NonceSize := by
    rw [List.length_take]; omega
  have hbo : boxOverhead = 16 := rfl
  have hmax : MaxMessageSize = 32768 := rfl
  have hlen : (modelSeal shared (randSrc.take NonceSize) m).length = m.length + boxOverhead :=
    modelSeal_length _ _ _
  rw [readerRead_frame modelOpen shared (randSrc.take NonceSize) _ plen _ hn rfl
    (by omega) (by omega)]
  rw [if_neg (by omega), modelOpen_seal]

/-- Witness for C1 at `m = [5, 6]`, a 10-byte destination buffer and a 24-byte
random source. -/
theorem roundtrip_ok_witness :
    NonceSize ≤ (List.replicate 24 3).length ∧
    [5, 6].length ≤ MaxMessageSize ∧ [5, 6].length ≤ 10 % 65536 ∧
    readerRead modelOpen [] 10 (writerWrite modelSeal [] (List.replicate 24 3) [5, 6]).1
      = Except.ok [5, 6] :=
  ⟨by decide, by decide, by decide,
    roundtrip_ok [] (List.replicate 24 3) [5, 6] 10 (by decide) (by decide) (by decide)⟩

/-- Counterexample to C1 as stated: `m = [7]` (1 byte, well below `MaxMessageSize`)
and a destination buffer of 65536 bytes (at least `len(m)`), yet the read fails,
because `uint16(65536) = 0 < 1`. -/
theorem roundtrip_cex :
    [7].length ≤ MaxMessageSize ∧ [7].length ≤ 65536 ∧
    readerRead modelOpen [] 65536 (writerWrite modelSeal [] (List.replicate 24 0) [7]).1
      = Except.error ReadErr.wrongSize :=
  ⟨by decide, by decide, rfl⟩

/-! ### Claim C2: oversized messages -/

/-- Claim C2 (amended): the secure Writer does not enforce
`len(plaintext) ≤ MaxMessageSize` and has no `MessageTooLarge` error: writing a
plaintext of any length — in particular `MaxMessageSize + 1` bytes — succeeds,
returning `len(p)` and emitting the frame
`nonce ++ littleEndianUint16 (len p + overhead) ++ ciphertext`.  The 16-bit
length field carries `(len p + overhead) mod 2^16`, which is exact (not
overflowed) for every plaintext up to `65519` bytes, `MaxMessageSize + 1`
included; it would silently overflow only from `65520` bytes on. -/
theorem writer_accepts_oversized (shared randSrc p : List Nat)
    (hrand : NonceSize ≤ randSrc.length) :
    (writerWrite modelSeal shared randSrc p).2 = Except.ok p.length ∧
    (writerWrite modelSeal shared randSrc p).1 =
      randSrc.take NonceSize ++ natToLe16 (p.length + boxOverhead) ++
        modelSeal shared (randSrc.take NonceSize) p ∧
    le16 ((p.length + boxOverhead) % 256) ((p.length + boxOverhead) / 256 % 256)
      = (p.length + boxOverhead) % 65536 := by
  rw [writerWrite_eq _ _ _ _ hrand]
  exact ⟨rfl, by rw [modelSeal_length], le16_natToLe16 _⟩

/-- Witness for C2 at a 3-byte plaintext. -/
theorem writer_accepts_oversized_witness :
    NonceSize ≤ (List.replicate 24 1).length ∧
    (writerWrite modelSeal [] (List.replicate 24 1) [8, 9, 10]).2 = Except.ok 3 :=
  ⟨by decide, ((writer_accepts_oversized [] (List.replicate 24 1) [8, 9, 10] (by decide)).1)⟩

/-- Counterexample to C2 as stated: writing a plaintext of `MaxMessageSize + 1`
bytes does not fail — it returns success with byte count `MaxMessageSize + 1`
(there is no `MessageTooLarge` path in `Writer.Write`), and the emitted length
field `[17, 128]` is the exact (unoverflowed) encoding of
`MaxMessageSize + 1 + overhead = 32785`. -/
theorem writer_oversized_cex :
    (writerWrite modelSeal [] (List.replicate NonceSize 0)
        (List.replicate (MaxMessageSize + 1) 0)).2 = Except.ok (MaxMessageSize + 1) ∧
    natToLe16 (MaxMessageSize + 1 + boxOverhead) = [17, 128] ∧
    le16 17 128 = MaxMessageSize + 1 + boxOverhead := by
  refine ⟨?_, by decide, by decide⟩
  rw [writerWrite_eq _ _ _ _ (by decide)]
  dsimp only
  rw [List.length_replicate]

/-! ### Claim C3: frame layout -/

/-- Claim C3 (amended): for every plaintext `p` with
`len(p) + overhead < 2^16` (in particular every `p` up to `MaxMessageSize`),
a successful `Writer.Write` emits exactly
`nonce (24 bytes) ++ littleEndianUint16 (len ciphertext) ++ ciphertext`,
where the length field equals `len(ciphertext)` and
`len(ciphertext) = len(p) + overhead > len(p)`.  The restriction is forced by
the `uint16` cast: from `len(p) = 65520` on, the 16-bit field wraps and no
longer equals the ciphertext length. -/
theorem writer_frame_layout (shared randSrc p : List Nat)
    (hrand : NonceSize ≤ randSrc.length) (hp : p.length + boxOverhead < 65536) :
    ∃ nonce enc,
      nonce.length = NonceSize ∧
      enc = modelSeal shared nonce p ∧
      enc.length = p.length + boxOverhead ∧
      p.length < enc.length ∧
      writerWrite modelSeal shared randSrc p
        = (nonce ++ natToLe16 enc.length ++ enc, Except.ok p.length) ∧
      le16 (enc.length % 256) (enc.length / 256 % 256) = enc.length := by
  have hbo : boxOverhead = 16 := rfl
  have hlen : (modelSeal shared (randSrc.take NonceSize) p).length = p.length + boxOverhead :=
    modelSeal_length _ _ _
  refine ⟨randSrc.take NonceSize, modelSeal shared (randSrc.take NonceSize) p,
    ?_, rfl, hlen, ?_, writerWrite_eq _ _ _ _ hrand, ?_⟩
  · rw [List.length_take]; omega
  · omega
  · rw [le16_natToLe16, hlen, Nat.mod_eq_of_lt hp]

/-- Witness for C3 at a 2-byte plaintext. -/
theorem writer_frame_layout_witness :
    NonceSize ≤ (List.replicate 24 2).length ∧ [4, 5].length + boxOverhead < 65536 ∧
    ∃ nonce enc,
      nonce.length = NonceSize ∧
      enc = modelSeal [] nonce [4, 5] ∧
      enc.length = [4, 5].length + boxOverhead ∧
      [4, 5].length < enc.length ∧
      writerWrite modelSeal [] (List.replicate 24 2) [4, 5]
        = (nonce ++ natToLe16 enc.length ++ enc, Except.ok [4, 5].length) ∧
      le16 (enc.length % 256) (enc.length / 256 % 256) = enc.length :=
  ⟨by decide, by decide, writer_frame_layout [] (List.replicate 24 2) [4, 5]
    (by decide) (by decide)⟩

/-- Counterexample to C3 as stated ("for every plaintext p"): at
`len(p) = 65520` the ciphertext is 65536 bytes long, the emitted length-field
bytes are `[0, 0]`, and the 16-bit field value 0 does not equal
`len(ciphertext) = 65536`. -/
theorem writer_frame_layout_cex :
    (modelSeal [] (List.replicate NonceSize 0) (List.replicate 65520 0)).length = 65536 ∧
    (writerWrite modelSeal [] (List.replicate NonceSize 0) (List.replicate 65520 0)).1
      = List.replicate NonceSize 0 ++ [0, 0] ++
        modelSeal [] (List.replicate NonceSize 0) (List.replicate 65520 0) ∧
    le16 0 0 = 0 ∧ (0 : Nat) ≠ 65536 := by
  have htake : (List.replicate NonceSize 0).take NonceSize = List.replicate NonceSize 0 := by
    simp
  have h1 : (modelSeal [] (List.replicate NonceSize 0) (List.replicate 65520 0)).length
      = 65536 := by
    rw [modelSeal_length, List.length_replicate]
    decide
  refine ⟨h1, ?_, by decide, by decide⟩
  rw [writerWrite_eq _ _ _ _ (by decide)]
  dsimp only
  rw [htake, h1]
  rfl

/-! ### Claim C4: blocking full reads and truncation -/

/-- Claim C4 (confirmed): every frame field is obtained by a blocking full read
of exactly the required byte count.  The `io.ReadFull` accumulation loop, fed
by arbitrary short deliveries of the underlying byte stream, returns exactly
the first `n` stream bytes whenever it succeeds, and fails whenever the stream
ends before `n` bytes — it never returns a partial field.  Consequently
`Reader.Read` fails with the truncation error of the field being read (and
does not panic or hang — the embedding is a total function): the nonce error
when the stream ends inside the 24-byte nonce (for example after only 10
bytes), the size error inside the 2-byte length, and the msg error inside the
length-many ciphertext bytes. -/
theorem read_truncated_stream :
    (∀ (deliver s : List Nat) (n : Nat), s.length < n → ioReadFull deliver s n = none) ∧
    (∀ (deliver s : List Nat) (n : Nat) (got rest : List Nat),
      ioReadFull deliver s n = some (got, rest) → got = s.take n ∧ rest = s.drop n) ∧
    (∀ (shared s : List Nat) (plen : Nat), s.length < NonceSize →
      readerRead modelOpen shared plen s = Except.error ReadErr.nonce) ∧
    (∀ (shared s : List Nat) (plen : Nat), NonceSize ≤ s.length → s.length < NonceSize + 2 →
      readerRead modelOpen shared plen s = Except.error ReadErr.size) ∧
    (∀ (shared nonce rest : List Nat) (plen b0 b1 : Nat), nonce.length = NonceSize →
      ¬ plen % 65536 < (le16 b0 b1 + 65536 - boxOverhead) % 65536 →
      rest.length < le16 b0 b1 →
      readerRead modelOpen shared plen (nonce ++ b0 :: b1 :: rest)
        = Except.error ReadErr.msg) := by
  refine ⟨ioReadFull_short, ioReadFull_sound, ?_, ?_, ?_⟩
  · intro shared s plen h
    unfold readerRead
    rw [readFull_of_lt _ _ h]
  · intro shared s plen h1 h2
    unfold readerRead
    simp only [readFull_of_le _ _ h1,
      readFull_of_lt (s.drop NonceSize) 2 (by simp; omega)]
  · intro shared nonce rest plen b0 b1 hn hcap hshort
    rw [readerRead_cons _ _ _ _ _ _ _ hn, if_neg hcap, if_neg (by omega)]

/-- Witness for C4: a stream that ends after 10 bytes yields the nonce
truncation error. -/
theorem read_truncated_stream_witness :
    readerRead modelOpen [] 100 (List.replicate 10 0) = Except.error ReadErr.nonce :=
  read_truncated_stream.2.2.1 [] (List.replicate 10 0) 100 (by decide)

/-! ### Claim C5: tamper detection -/

/-- Claim C5 (confirmed): flipping any single bit (bit `i` of byte `j`) of the
ciphertext of a well-formed frame — without re-deriving a valid tag — makes
`Reader.Read` fail with the decrypt (authentication) error, returning zero
bytes of plaintext: the `Except.error` result carries no portion of the
attempted plaintext.  (`plen` is any destination buffer that passes the
capacity check, so the failure is attributable to authentication alone.) -/
theorem read_rejects_tampered (shared nonce m : List Nat) (plen j i : Nat)
    (hn : nonce.length = NonceSize)
    (hj : j < (modelSeal shared nonce m).length) (_hi : i < 8)
    (hm : m.length + boxOverhead < 65536)
    (hbuf : m.length ≤ plen % 65536) :
    readerRead modelOpen shared plen
      (nonce ++ natToLe16 (modelSeal shared nonce m).length ++
        bitFlip (modelSeal shared nonce m) j i)
      = Except.error ReadErr.decrypt := by
  have hbo : boxOverhead = 16 := rfl
  have hlen : (modelSeal shared nonce m).length = m.length + boxOverhead :=
    modelSeal_length _ _ _
  have hflen : (bitFlip (modelSeal shared nonce m) j i).length
      = (modelSeal shared nonce m).length := by
    rw [bitFlip, List.length_set]
  rw [readerRead_frame modelOpen shared nonce _ plen _ hn hflen.symm
    (by omega) (by omega)]
  rw [if_neg (by omega), modelOpen_bitFlip _ _ _ _ _ hj]

/-- Witness for C5: flip bit 0 of ciphertext byte 16 (the first message byte)
of the frame sealing `[7]`. -/
theorem read_rejects_tampered_witness :
    readerRead modelOpen [] 100
      (List.replicate 24 0 ++ natToLe16 (modelSeal [] (List.replicate 24 0) [7]).length ++
        bitFlip (modelSeal [] (List.replicate 24 0) [7]) 16 0)
      = Except.error ReadErr.decrypt :=
  read_rejects_tampered [] (List.replicate 24 0) [7] 100 16 0
    (by decide) (by decide) (by decide) (by decide) (by decide)

/-! ### Claim C6: destination buffer too small -/

/-- Claim C6 (confirmed): when the plaintext recovered from a well-formed frame
is larger than the caller-supplied destination buffer, `Reader.Read` fails with
the capacity ("wrong size") error and returns no plaintext at all — nothing is
silently truncated into the buffer.  (The code performs this check before
decrypting, so the oversized plaintext is never even produced.) -/
theorem read_buffer_too_small (shared nonce m : List Nat) (plen : Nat)
    (hn : nonce.length = NonceSize) (hm : m.length + boxOverhead < 65536)
    (hsmall : plen < m.length) :
    readerRead modelOpen shared plen
      (nonce ++ natToLe16 (modelSeal shared nonce m).length ++ modelSeal shared nonce m)
      = Except.error ReadErr.wrongSize := by
  have hbo : boxOverhead = 16 := rfl
  have hlen : (modelSeal shared nonce m).length = m.length + boxOverhead :=
    modelSeal_length _ _ _
  rw [readerRead_frame modelOpen shared nonce _ plen _ hn rfl (by omega) (by omega)]
  have hmod : plen % 65536 ≤ plen := Nat.mod_le _ _
  rw [if_pos (by omega)]

/-- Witness for C6: a 3-byte plaintext against a 2-byte destination buffer. -/
theorem read_buffer_too_small_witness :
    readerRead modelOpen [] 2
      (List.replicate 24 0 ++
        natToLe16 (modelSeal [] (List.replicate 24 0) [1, 2, 3]).length ++
        modelSeal [] (List.replicate 24 0) [1, 2, 3])
      = Except.error ReadErr.wrongSize :=
  read_buffer_too_small [] (List.replicate 24 0) [1, 2, 3] 2
    (by decide) (by decide) (by decide)

/-! ### Claim C7: handshake peer-key read -/

/-- Claim C7 (amended): in the canonical handshake (`dial` and
`handleConnection` in cmd/challenge2/main.go), each peer writes its own
32-byte public key and reads the peer's key with a blocking full read
(`io.ReadFull`) of exactly `KeySize = 32` bytes before any frame traffic: if
the stream ends before 32 bytes the read fails (and `dial` aborts with the
error) rather than proceeding; otherwise exactly the first 32 stream bytes
become the peer key.  The legacy `Dial` in src/main.go does not satisfy the
claim: it issues a single opportunistic read and zero-pads a short result
(see the counterexample). -/
theorem dial_peer_key_full_read (s : List Nat) :
    (s.length < KeySize → dialReadPeerKey s = none) ∧
    (KeySize ≤ s.length →
      dialReadPeerKey s = some (s.take KeySize) ∧ (s.take KeySize).length = KeySize) := by
  constructor
  · intro h
    unfold dialReadPeerKey
    rw [readFull_of_lt _ _ h]
  · intro h
    unfold dialReadPeerKey
    rw [readFull_of_le _ _ h]
    exact ⟨rfl, by rw [List.length_take]; omega⟩

/-- Witness for C7: a 10-byte stream fails, a 40-byte stream yields exactly the
first 32 bytes. -/
theorem dial_peer_key_full_read_witness :
    dialReadPeerKey (List.replicate 10 0) = none ∧
    dialReadPeerKey (List.replicate 40 2) = some (List.replicate 32 2) := by
  constructor
  · exact (dial_peer_key_full_read (List.replicate 10 0)).1 (by decide)
  · rw [((dial_peer_key_full_read (List.replicate 40 2)).2 (by decide)).1]
    decide

/-- Counterexample to C7 as stated: the legacy `Dial` (src/main.go) performs a
single `conn.Read`; when that one call delivers only 10 bytes it proceeds
without error using the 10 delivered bytes zero-padded to 32 — a
partially-read key, with no `PeerKeyTruncated`-style failure. -/
theorem legacy_dial_zero_pads_cex :
    (List.replicate 10 1).length < KeySize ∧
    legacyDialPeerKey (List.replicate 10 1) = List.replicate 10 1 ++ List.replicate 22 0 ∧
    (legacyDialPeerKey (List.replicate 10 1)).length = KeySize := by decide

/-! ### Claim C8: nonce generation -/

/-- Claim C8 (confirmed): `Writer.Write` obtains its nonce by a full read of
exactly `NonceSize = 24` bytes from the secure random source.  If the source
cannot supply all 24 bytes, `Write` returns the nonce-generation error and
writes nothing at all to the transport; otherwise the emitted frame begins
with the full 24-byte nonce taken from the source. -/
theorem write_nonce_generation (shared randSrc p : List Nat) :
    (randSrc.length < NonceSize →
      writerWrite modelSeal shared randSrc p = ([], Except.error WriteErr.nonceGen)) ∧
    (NonceSize ≤ randSrc.length →
      (randSrc.take NonceSize).length = NonceSize ∧
      (writerWrite modelSeal shared randSrc p).1.take NonceSize
        = randSrc.take NonceSize) := by
  constructor
  · intro h
    exact writerWrite_short modelSeal shared randSrc p h
  · intro h
    have hn : (randSrc.take NonceSize).length = NonceSize := by
      rw [List.length_take]; omega
    refine ⟨hn, ?_⟩
    rw [writerWrite_eq _ _ _ _ h]
    dsimp only
    rw [List.append_assoc, List.take_left' hn]

/-- Witness for C8: a 23-byte random source fails with nothing written;
a 30-byte source yields a frame starting with its first 24 bytes. -/
theorem write_nonce_generation_witness :
    writerWrite modelSeal [] (List.replicate 23 5) [9] = ([], Except.error WriteErr.nonceGen) ∧
    (writerWrite modelSeal [] (List.replicate 30 5) [9]).1.take NonceSize
      = (List.replicate 30 5).take NonceSize := by
  constructor
  · exact (write_nonce_generation [] (List.replicate 23 5) [9]).1 (by decide)
  · exact ((write_nonce_generation [] (List.replicate 30 5) [9]).2 (by decide)).2

/-! ### Claim C9: Write returns the plaintext byte count -/

/-- Claim C9 (confirmed): a successful `Writer.Write` (secure.go) returns
`len(p)` — the number of plaintext bytes accepted, as the stream-writer
contract requires — even though the frame actually written to the transport is
strictly longer: `NonceSize + 2 + (len(p) + overhead)` bytes. -/
theorem write_returns_plaintext_count (shared randSrc p : List Nat)
    (hrand : NonceSize ≤ randSrc.length) :
    (writerWrite modelSeal shared randSrc p).2 = Except.ok p.length ∧
    (writerWrite modelSeal shared randSrc p).1.length
      = NonceSize + 2 + (p.length + boxOverhead) ∧
    p.length < (writerWrite modelSeal shared randSrc p).1.length := by
  rw [writerWrite_eq _ _ _ _ hrand]
  dsimp only
  have hbo : boxOverhead = 16 := rfl
  have hlist : (randSrc.take NonceSize ++
      natToLe16 (modelSeal shared (randSrc.take NonceSize) p).length ++
      modelSeal shared (randSrc.take NonceSize) p).length
      = NonceSize + 2 + (p.length + boxOverhead) := by
    rw [List.length_append, List.length_append, List.length_take, natToLe16_eq,
      modelSeal_length]
    simp only [List.length_cons, List.length_nil]
    omega
  exact ⟨rfl, hlist, by omega⟩

/-- Witness for C9: writing 3 plaintext bytes returns 3 and transmits 45 frame
bytes. -/
theorem write_returns_plaintext_count_witness :
    (writerWrite modelSeal [] (List.replicate 24 9) [1, 2, 3]).2 = Except.ok 3 ∧
    (writerWrite modelSeal [] (List.replicate 24 9) [1, 2, 3]).1.length = 45 :=
  ⟨(write_returns_plaintext_count [] (List.replicate 24 9) [1, 2, 3] (by decide)).1,
    by rw [(write_returns_plaintext_count [] (List.replicate 24 9) [1, 2, 3]
      (by decide)).2.1]; decide⟩

/-! ### Claim C10: uint16 truncation of the capacity check -/

/-- Claim C10 (confirmed): `Reader.Read` compares `uint16(len(p))` — the
destination length reduced mod 2^16 — with `size - overhead` in 16-bit
arithmetic.  For every destination buffer whose length is an exact multiple of
65536 and every frame whose ciphertext length field exceeds the tag overhead,
the check fires and `Read` fails with the capacity error, even when the buffer
(for example exactly 65536 bytes) is large enough for the plaintext. -/
theorem read_uint16_capacity_check (shared nonce rest : List Nat) (plen b0 b1 : Nat)
    (hn : nonce.length = NonceSize) (hmul : plen % 65536 = 0)
    (hsz : boxOverhead < le16 b0 b1) :
    readerRead modelOpen shared plen (nonce ++ b0 :: b1 :: rest)
      = Except.error ReadErr.wrongSize := by
  rw [readerRead_cons _ _ _ _ _ _ _ hn]
  have hlt := le16_lt b0 b1
  have hbo : boxOverhead = 16 := rfl
  rw [if_pos (by omega)]

/-- Witness for C10: a 65536-byte destination buffer (large enough for the
17-byte ciphertext's 1-byte plaintext) still fails the capacity check. -/
theorem read_uint16_capacity_check_witness :
    readerRead modelOpen [] 65536 (List.replicate 24 0 ++ 17 :: 0 :: List.replicate 17 0)
      = Except.error ReadErr.wrongSize :=
  read_uint16_capacity_check [] (List.replicate 24 0) (List.replicate 17 0) 65536 17 0
    (by decide) (by decide) (by decide)

end Secure
